import Mathlib

/-!
Verification development for the ImageDataAnnotator repository.

Python strings are modelled as `List Char` (a Python `str` is a sequence of
code points).  Machine integers are modelled as `Int` (Python ints are
unbounded), Python floats as `ℚ` (all float computations in the modelled
code are products/quotients of values derived from ints, so exact rational
arithmetic is the intended semantics).
-/

namespace ImgAnn

/-- Abbreviation: Python-style strings. -/
abbrev Str := List Char

/-- Conversion from Lean string literals. -/
def strL (s : String) : Str := s.data

/-- Whitespace characters recognised by Python's `str.split()` / `str.strip()`
(space, tab, newline, carriage return, vertical tab, form feed). -/
def isPySpace (c : Char) : Bool :=
  c == ' ' || c == '\t' || c == '\n' || c == '\r' ||
  c == Char.ofNat 11 || c == Char.ofNat 12

/-- Accumulator-based splitting on whitespace runs; models Python
`str.split()` (no empty words are produced). -/
def wordsAux : Str → Str → List Str
  | acc, [] => if acc.isEmpty then [] else [acc.reverse]
  | acc, c :: cs =>
    if isPySpace c then
      if acc.isEmpty then wordsAux [] cs else acc.reverse :: wordsAux [] cs
    else wordsAux (c :: acc) cs

/-- Python `paragraph.split()`: the whitespace-separated words. -/
def pyWords (s : Str) : List Str := wordsAux [] s

/-- Python `text.split('\n')`. -/
def splitNl : Str → List Str
  | [] => [[]]
  | c :: cs =>
    if c = '\n' then [] :: splitNl cs
    else
      match splitNl cs with
      | [] => [[c]]
      | p :: ps => (c :: p) :: ps

/-- Python `str.strip()`: drop leading and trailing whitespace. -/
def pyStrip (s : Str) : Str :=
  ((s.dropWhile isPySpace).reverse.dropWhile isPySpace).reverse

/-- A string is a word if it is nonempty and contains no whitespace. -/
def IsWord (w : Str) : Prop := w ≠ [] ∧ ∀ c ∈ w, isPySpace c = false

/-!
## `ImageProcessor._wrap_text` (src/src/core/image_processor.py, lines 328-353)

The font is abstracted to its measuring function `m : Str → Int`, which
models `font.getbbox(test_line)[2] - font.getbbox(test_line)[0]` (or, on the
exception fallback, `len(test_line) * (font.size // 2)`); in either case the
algorithm only consumes one integer per candidate line.
-/

/-- The inner loop of `_wrap_text` over the words of one paragraph:
`current_line` plus the remaining words. -/
def wrapLoop (m : Str → Int) (maxWidth : Int) : Str → List Str → List Str
  | cur, [] => [cur]
  | cur, w :: ws =>
    let t := cur ++ ' ' :: w
    if m t ≤ maxWidth then wrapLoop m maxWidth t ws
    else cur :: wrapLoop m maxWidth w ws

/-- One paragraph of `_wrap_text`: empty word list appends `''`, otherwise
the greedy fill starting from the first word. -/
def wrapParagraph (m : Str → Int) (maxWidth : Int) (p : Str) : List Str :=
  match pyWords p with
  | [] => [[]]
  | w :: ws => wrapLoop m maxWidth w ws

/-- `ImageProcessor._wrap_text`: split on `'\n'`, wrap each paragraph, and
concatenate all produced lines in order. -/
def wrapText (m : Str → Int) (text : Str) (maxWidth : Int) : List Str :=
  (splitNl text).flatMap (wrapParagraph m maxWidth)

/-!
## `ImageProcessor.process_image` (src/src/core/image_processor.py, lines 72-326)

`PIL.Image` objects are abstracted to their pixel dimensions; the font to its
measuring function.  Settings keys are the ones `process_image` reads
(`settings.get(...)`), with `excel_fields.get(f, {}).get("enabled")`
truthiness modelled as a `Bool` per field and `excel_data.get(f)` truthiness
as nonemptiness of the stored string.  Python float arithmetic is modelled
exactly over `ℚ`; `int(x)` is truncation toward zero.  A Python exception is
an `Except.error` carrying its message.
-/

/-- A PIL image, abstracted to its size. -/
structure PILImage where
  w : Int
  h : Int
deriving DecidableEq, Repr

/-- The settings fields read by `process_image`. -/
structure Settings where
  panel_width : Int
  position : Str
  font_size : Int
  inn_enabled : Bool
  kpp_enabled : Bool
  supplier_enabled : Bool
  hyperlink_enabled : Bool
  stamp_enabled : Bool
  stamp_scale : ℚ
  stampOffset : Int × Int
deriving DecidableEq

/-- The per-row spreadsheet data handed to `process_image`; absent keys are
the empty string (both are falsy in the `excel_data.get(f)` tests). -/
structure ExcelData where
  inn : Str
  kpp : Str
  supplier : Str
  hyperlink : Str
deriving DecidableEq, Repr

/-- Python `int(q)` on a float: truncation toward zero. -/
def pyInt (q : ℚ) : Int := if 0 ≤ q then ⌊q⌋ else ⌈q⌉

/-- `int(self.stamp_image.width * stamp_scale)`. -/
def stampScaledW (st : PILImage) (scale : ℚ) : Int := pyInt ((st.w : ℚ) * scale)

/-- `int(self.stamp_image.height * stamp_scale)`. -/
def stampScaledH (st : PILImage) (scale : ℚ) : Int := pyInt ((st.h : ℚ) * scale)

/-- Message of a Python `ZeroDivisionError`. -/
def divErr : Str := strL "division by zero"

/-- The stamp-height computation of the sizing passes (lines 142-148 and
194-200): scale, then if the scaled width exceeds `limit`, shrink the height
by `ratio = limit / stamp_width`; the width is not reassigned here. -/
def stampFitHeight (limit : Int) (st : PILImage) (scale : ℚ) : Except Str Int :=
  let sw := stampScaledW st scale
  let sh := stampScaledH st scale
  if limit < sw then
    if sw = 0 then .error divErr
    else .ok (pyInt ((sh : ℚ) * ((limit : ℚ) / (sw : ℚ))))
  else .ok sh

/-- The stamp-size computation of the drawing pass (lines 284-291): the
width is clamped to `panel_width - 20` and the height shrunk by the same
ratio. -/
def stampFitSize (pw : Int) (st : PILImage) (scale : ℚ) : Except Str (Int × Int) :=
  let sw := stampScaledW st scale
  let sh := stampScaledH st scale
  if pw - 20 < sw then
    if sw = 0 then .error divErr
    else .ok (pw - 20, pyInt ((sh : ℚ) * (((pw - 20 : Int) : ℚ) / (sw : ℚ))))
  else .ok (sw, sh)

/-- Height contributed by the four Excel-driven blocks (INN, KPP, supplier,
hyperlink), wrapped at width `w`, with line height `lh`.  This text appears
identically in the sizing passes (lines 111-127 / 163-179) and the drawing
pass (lines 228-252). -/
def excelBlockHeight (m : Str → Int) (S : Settings) (E : ExcelData) (w lh : Int) : Int :=
  (if S.inn_enabled ∧ E.inn ≠ [] then lh else 0) +
  (if S.kpp_enabled ∧ E.kpp ≠ [] then lh else 0) +
  (if S.supplier_enabled ∧ E.supplier ≠ [] then
    ((wrapText m (strL "Поставщик:\n" ++ E.supplier) w).length : Int) * lh
  else 0) +
  (if S.hyperlink_enabled ∧ E.hyperlink ≠ [] then
    ((wrapText m (strL "Ссылка: " ++ E.hyperlink) w).length : Int) * lh
  else 0)

/-- Height contributed by the fixed texts (`for text in fixed_texts: if
text: ...`), wrapped at width `w`. -/
def fixedTextsHeight (m : Str → Int) (w lh : Int) : List Str → Int
  | [] => 0
  | t :: ts =>
    (if t ≠ [] then ((wrapText m t w).length : Int) * lh else 0) +
      fixedTextsHeight m w lh ts

/-- Lines 104-152: `required_height` for the left panel (wrap width
`panel_width - 20`, stamp limited by `panel_width - 20`). -/
def requiredHeightLeft (m : Str → Int) (S : Settings) (E : ExcelData)
    (fixed : List Str) (stamp : Option PILImage) : Except Str Int :=
  let lh := S.font_size + 8
  let base := 20 + excelBlockHeight m S E (S.panel_width - 20) lh + 25 +
    fixedTextsHeight m (S.panel_width - 20) lh fixed
  match stamp with
  | some st =>
    if S.stamp_enabled then do
      let sh ← stampFitHeight (S.panel_width - 20) st S.stamp_scale
      pure (base + (sh + 40))
    else pure base
  | none => pure base

/-- Lines 157-203: `panel_height` for the bottom panel (wrap width
`original.width - 20`, stamp limited by `original.width - 20`, plus the
final bottom margin of 20). -/
def panelHeightBottom (m : Str → Int) (S : Settings) (E : ExcelData)
    (fixed : List Str) (stamp : Option PILImage) (orig : PILImage) : Except Str Int :=
  let lh := S.font_size + 8
  let base := 20 + excelBlockHeight m S E (orig.w - 20) lh + 25 +
    fixedTextsHeight m (orig.w - 20) lh fixed
  match stamp with
  | some st =>
    if S.stamp_enabled then do
      let sh ← stampFitHeight (orig.w - 20) st S.stamp_scale
      pure (base + (sh + 40) + 20)
    else pure (base + 20)
  | none => pure (base + 20)

/-- The successive `current_y` values of `k` drawn lines starting at `y`
(`for line in lines: ...; current_y += line_height`). -/
def lineYs (lh : Int) : Int → Nat → List Int
  | _, 0 => []
  | y, k + 1 => y :: lineYs lh (y + lh) k

/-- The `current_y` value of every fixed-text line drawn by the loop at
lines 262-276, starting at `text_y = y`; empty texts are skipped. -/
def fixedLinesYs (m : Str → Int) (w lh : Int) : Int → List Str → List Int
  | _, [] => []
  | y, t :: ts =>
    if t ≠ [] then
      lineYs lh y (wrapText m t w).length ++
        fixedLinesYs m w lh (y + ((wrapText m t w).length : Int) * lh) ts
    else fixedLinesYs m w lh y ts

/-- The observable outcome of one successful `process_image` layout run:
canvas size, paste position of the source image, the panel rectangle, the
`current_y` of each drawn fixed-text line, whether the out-of-bounds branch
(line 270) was ever taken, and the pasted stamp's `(x, y, width, height)`. -/
structure Layout where
  canvasW : Int
  canvasH : Int
  pastePos : Int × Int
  panelArea : Int × Int × Int × Int
  fixedYs : List Int
  overflow : Bool
  stampDraw : Option (Int × Int × Int × Int)
deriving DecidableEq, Repr

/-- Lines 211-303: the drawing pass over a given panel rectangle.  All text
is wrapped at `panel_width - 20` here, for both panel positions. -/
def drawPass (m : Str → Int) (S : Settings) (E : ExcelData) (fixed : List Str)
    (stamp : Option PILImage) (panel : Int × Int × Int × Int) :
    Except Str (List Int × Bool × Option (Int × Int × Int × Int)) :=
  let pw := S.panel_width
  let lh := S.font_size + 8
  let tx := panel.1 + 10
  let ty0 := panel.2.1 + 10
  let ty1 := ty0 + excelBlockHeight m S E (pw - 20) lh
  let ty2 := ty1 + 25
  let ys := fixedLinesYs m (pw - 20) lh ty2 fixed
  let bottom := panel.2.2.2
  let ovf := ys.any fun y => decide (bottom < y + lh)
  let tyEnd := ty2 + fixedTextsHeight m (pw - 20) lh fixed
  match stamp with
  | some st =>
    if S.stamp_enabled then do
      let wh ← stampFitSize pw st S.stamp_scale
      pure (ys, ovf, some (tx + S.stampOffset.1, tyEnd + 20 + S.stampOffset.2, wh.1, wh.2))
    else pure (ys, ovf, none)
  | none => pure (ys, ovf, none)

/-- The pure core of `process_image` (lines 86-303): sizing pass, canvas
creation, paste, drawing pass. -/
def processImagePure (m : Str → Int) (S : Settings) (E : ExcelData)
    (fixed : List Str) (orig : PILImage) (stamp : Option PILImage) :
    Except Str Layout := do
  let pw := S.panel_width
  if S.position = strL "left" then
    let req ← requiredHeightLeft m S E fixed stamp
    let nh := max orig.h (req + 20)
    let nw := orig.w + pw
    let panel := (0, 0, pw, nh)
    let d ← drawPass m S E fixed stamp panel
    pure ⟨nw, nh, (pw, 0), panel, d.1, d.2.1, d.2.2⟩
  else
    let ph ← panelHeightBottom m S E fixed stamp orig
    let nw := orig.w
    let nh := orig.h + ph
    let panel := (0, orig.h, nw, nh)
    let d ← drawPass m S E fixed stamp panel
    pure ⟨nw, nh, (0, 0), panel, d.1, d.2.1, d.2.2⟩

/-- `process_image` with its outer `try/except` (lines 80 and 325-326):
opening the source image and saving the result are abstracted to `Except`
values; every success returns `(True, "OK")` (line 323) and every exception
is caught and wrapped (line 326). -/
def processImage (openRes : Except Str PILImage) (m : Str → Int) (S : Settings)
    (E : ExcelData) (fixed : List Str) (stamp : Option PILImage)
    (saveRes : Layout → Except Str Unit) : Bool × Str :=
  match (do
      let orig ← openRes
      let lay ← processImagePure m S E fixed orig stamp
      saveRes lay : Except Str Unit) with
  | .ok _ => (true, strL "OK")
  | .error e => (false, strL "Ошибка обработки: " ++ e)

/-!
## `ExcelReader` (src/src/core/excel_reader.py)

A worksheet is abstracted to a cell function (1-based row, 0-based column,
value already stringified; `none` is an empty cell).  `self.data` is a dict,
modelled as an insertion-ordered association list where the *last* binding
of a key wins (`dictGet`).
-/

/-- `pathlib.PurePath(...).name`: the final path component. -/
def pathName (f : Str) : Str :=
  (f.reverse.takeWhile fun c => ¬(c = '/')).reverse

/-- `pathlib.PurePath(...).stem`: the final component with its last
extension removed; the suffix is `name[i:]` for `i = name.rfind('.')` only
when `0 < i < len(name) - 1`. -/
def pathStem (f : Str) : Str :=
  let n := pathName f
  let tailLen := (n.reverse.takeWhile fun c => ¬(c = '.')).length
  if tailLen = n.length then n
  else
    let i := n.length - tailLen - 1
    if 0 < i ∧ i < n.length - 1 then n.take i else n

/-- `ExcelReader._normalize_position` (lines 80-86): strip surrounding
whitespace, then replace every `'.'` with `'-'`. -/
def normalizePos (position : Str) : Str :=
  (pyStrip position).map fun c => if c = '.' then '-' else c

/-- The non-position entries of `ExcelReader.DEFAULT_COLUMNS`. -/
def defaultFieldCols : List (Str × Nat) :=
  [(strL "supplier", 19), (strL "kpp", 21), (strL "inn", 22), (strL "hyperlink", 23)]

/-- A worksheet: row (1-based) and 0-based column index to cell text. -/
structure SheetModel where
  cell : Nat → Nat → Option Str

/-- The `row_data` dict built for one row (lines 66-71): each non-position
field name mapped to the cell text, `""` for an empty cell. -/
def rowData (sh : SheetModel) (r : Nat) : List (Str × Str) :=
  defaultFieldCols.map fun p => (p.1, (sh.cell r p.2).getD [])

/-- The `while True` loop of `ExcelReader.parse` (lines 53-74) with the
default column mapping, starting at row `r`, with explicit fuel: stops at the
first row whose position cell is `None` or whitespace-only, otherwise stores
the row under `normalizePos` of the position cell. -/
def parseLoop (sh : SheetModel) : Nat → Nat → List (Str × List (Str × Str))
  | _, 0 => []
  | r, fuel + 1 =>
    match sh.cell r 0 with
    | none => []
    | some v =>
      if pyStrip v = [] then []
      else (normalizePos v, rowData sh r) :: parseLoop sh (r + 1) fuel

/-- `ExcelReader.parse` starting at `DATA_START_ROW = 11`. -/
def parseData (sh : SheetModel) (fuel : Nat) : List (Str × List (Str × Str)) :=
  parseLoop sh 11 fuel

/-- Python `dict.get`: the most recently stored binding of the key, `None`
if absent. -/
def dictGet {α : Type} (entries : List (Str × α)) (k : Str) : Option α :=
  entries.foldl (fun acc e => if e.1 = k then some e.2 else acc) none

/-- `ExcelReader.get_data_for_file` (lines 88-92): look the filename's stem
up in `self.data`. -/
def get_data_for_file (entries : List (Str × List (Str × Str))) (filename : Str) :
    Option (List (Str × Str)) :=
  dictGet entries (pathStem filename)

/-- The `while index >= 0` loop of `get_column_letter` (lines 120-126) for a
nonnegative index, as structural recursion: the next index is
`index // 26 - 1` and the loop stops once it is negative. -/
def colLetterNat (n : Nat) : Str :=
  let c := Char.ofNat (n % 26 + 65)
  if _h : n < 26 then [c]
  else colLetterNat (n / 26 - 1) ++ [c]
termination_by n
decreasing_by
  have h2 : n / 26 < n := Nat.div_lt_self (by omega) (by omega)
  omega

/-- `get_column_letter` (lines 120-126); a negative index never enters the
loop and yields the empty string. -/
def get_column_letter (index : Int) : Str :=
  if index < 0 then [] else colLetterNat index.toNat

/-- `get_column_index` (lines 129-134): `result = result * 26 +
(ord(char.upper()) - ord('A') + 1)` over the letters, minus one. -/
def get_column_index (letter : Str) : Int :=
  (letter.foldl (fun acc c => acc * 26 + ((c.toUpper.toNat : Int) - 64)) 0) - 1

/-!
## `CheckpointManager` (src/src/utils/checkpoint.py)

`self.data` is either the empty dict (`none`) or a record of the three
checked keys; a key missing from a nonempty dict defaults to `[]` exactly as
in `self.data.get(key, [])`, so it is modelled as the empty list.  A failed
entry keeps its `"file"` and `"error"` fields (the timestamp plays no role
in any lookup).
-/

/-- The checkpoint session fields consulted by pending/mark operations. -/
structure CPData where
  all_files : List Str
  processed_files : List Str
  failed_files : List (Str × Str)
deriving DecidableEq, Repr

/-- `self.data`: `none` models the empty dict. -/
abbrev CPState := Option CPData

/-- `CheckpointManager.get_pending_files` (lines 49-58). -/
def get_pending_files : CPState → List Str
  | none => []
  | some d =>
    d.all_files.filter fun f =>
      decide (f ∉ d.processed_files ∧ f ∉ d.failed_files.map Prod.fst)

/-- `CheckpointManager.mark_processed` (lines 60-64). -/
def mark_processed (s : CPState) (filename : Str) : CPState :=
  match s with
  | none => some ⟨[], [filename], []⟩
  | some d => some { d with processed_files := d.processed_files ++ [filename] }

/-- `CheckpointManager.mark_failed` (lines 66-74). -/
def mark_failed (s : CPState) (filename err : Str) : CPState :=
  match s with
  | none => some ⟨[], [], [(filename, err)]⟩
  | some d => some { d with failed_files := d.failed_files ++ [(filename, err)] }

/-- The state mutations a processing run performs on the checkpoint. -/
inductive CPOp where
  | proc (f : Str)
  | fail (f e : Str)

/-- Apply one mutation. -/
def applyOp (s : CPState) : CPOp → CPState
  | .proc f => mark_processed s f
  | .fail f e => mark_failed s f e

/-- Apply a sequence of mutations. -/
def applyOps (s : CPState) (ops : List CPOp) : CPState := ops.foldl applyOp s

/-!
## `ProcessingWorker` counters and statistics (src/src/core/worker.py)

Wall-clock quantities (`elapsed`) are inputs; float arithmetic is exact
over `ℚ`.
-/

/-- The three counters updated under `self._lock`. -/
structure WCounts where
  processed : Nat
  success : Nat
  failed : Nat
deriving DecidableEq, Repr

/-- The counter update of `ProcessingWorker._handle_result` (lines 176-182). -/
def handle_result (c : WCounts) (success : Bool) : WCounts :=
  { processed := c.processed + 1
    success := if success then c.success + 1 else c.success
    failed := if success then c.failed else c.failed + 1 }

/-- Counters after handling a list of result outcomes, from the initial
zero counters of `__init__`. -/
def runCounts (results : List Bool) : WCounts :=
  results.foldl handle_result ⟨0, 0, 0⟩

/-- The `(current, total)` payloads of the `progress` signals emitted by the
successive `_handle_result` calls (lines 191-195), in order. -/
def progressEmits : WCounts → Nat → List Bool → List (Nat × Nat)
  | _, _, [] => []
  | c, total, r :: rs =>
    let c' := handle_result c r
    (c'.processed, total) :: progressEmits c' total rs

/-- The fields of the dict built by `_emit_statistics` /
`_emit_final_statistics`. -/
structure WStats where
  processed : Nat
  total : Nat
  success : Nat
  failed : Nat
  skipped : Nat
  elapsed : ℚ
  speed : ℚ
  remaining : ℚ
  percent : ℚ
deriving DecidableEq, Repr

/-- `ProcessingWorker._emit_statistics` (lines 201-219). -/
def emitStatistics (c : WCounts) (skipped total : Nat) (elapsed : ℚ) : WStats :=
  let speed : ℚ := if 0 < elapsed then (c.processed : ℚ) / elapsed else 0
  let remaining : ℚ := if 0 < speed then ((total : ℚ) - (c.processed : ℚ)) / speed else 0
  { processed := c.processed, total := total, success := c.success,
    failed := c.failed, skipped := skipped, elapsed := elapsed, speed := speed,
    remaining := remaining,
    percent := if 0 < total then (c.processed : ℚ) / (total : ℚ) * 100 else 0 }

/-- `ProcessingWorker._emit_final_statistics` (lines 221-238). -/
def emitFinalStatistics (c : WCounts) (skipped total : Nat) (elapsed : ℚ) : WStats :=
  let speed : ℚ := if 0 < elapsed then (c.processed : ℚ) / elapsed else 0
  { processed := c.processed, total := total, success := c.success,
    failed := c.failed, skipped := skipped, elapsed := elapsed, speed := speed,
    remaining := 0,
    percent := if c.processed = total then 100 else (c.processed : ℚ) / (total : ℚ) * 100 }

/-!
## `ProcessingWorker.run` cancellation (src/src/core/worker.py, lines 82-148,
240-261)

A small labelled transition system over the worker thread's program counter.
`run`'s submission loop checks `_is_cancelled` before each submission and the
result loop before handling each completed future; `cancel`, `pause` and
`resume` may fire from the GUI thread between any two worker steps.
`_is_paused.wait()` is the enabling condition `pauseSet = true` on the
`submit` / `handle` steps; no transition ever clears `cancelled` (nothing in
the source calls `_is_cancelled.clear()`).
-/

/-- Program counter of the worker thread inside `run`. -/
inductive WPC where
  | submitCheck (i : Nat)
  | submitWaiting (i : Nat)
  | resultCheck
  | resultWaiting
  | done
deriving DecidableEq, Repr

/-- Worker state: program counter, the two events, and the counts of
submitted and handled futures. -/
structure WorkerState where
  pc : WPC
  cancelled : Bool
  pauseSet : Bool
  submitted : Nat
  handled : Nat
deriving DecidableEq, Repr

/-- `ProcessingWorker.is_cancelled` (lines 258-261). -/
def is_cancelled (s : WorkerState) : Bool := s.cancelled

/-- `ProcessingWorker.is_paused` (lines 253-256): true iff the pause event
is cleared. -/
def is_paused (s : WorkerState) : Bool := !s.pauseSet

/-- Observable step labels. -/
inductive WLabel where
  | check
  | submit
  | handle
  | cancelCall
  | pauseCall
  | resumeCall
deriving DecidableEq, Repr

/-- One transition of the system for a run over `n` tasks. -/
inductive WStep (n : Nat) : WorkerState → WLabel → WorkerState → Prop where
  /-- The `for` loop over tasks is exhausted. -/
  | submitLoopEnd (s : WorkerState) (i : Nat) :
      s.pc = .submitCheck i → n ≤ i →
      WStep n s .check { s with pc := .resultCheck }
  /-- Line 102-103: `if self._is_cancelled.is_set(): break`. -/
  | submitBreak (s : WorkerState) (i : Nat) :
      s.pc = .submitCheck i → i < n → s.cancelled = true →
      WStep n s .check { s with pc := .resultCheck }
  /-- The cancellation check passes. -/
  | submitPass (s : WorkerState) (i : Nat) :
      s.pc = .submitCheck i → i < n → s.cancelled = false →
      WStep n s .check { s with pc := .submitWaiting i }
  /-- Line 106 then 109: `_is_paused.wait()` returns (event set) and the
  task is submitted to the pool. -/
  | submitTask (s : WorkerState) (i : Nat) :
      s.pc = .submitWaiting i → s.pauseSet = true →
      WStep n s .submit
        { s with pc := .submitCheck (i + 1), submitted := s.submitted + 1 }
  /-- `as_completed` is exhausted. -/
  | resultLoopEnd (s : WorkerState) :
      s.pc = .resultCheck → s.submitted ≤ s.handled →
      WStep n s .check { s with pc := .done }
  /-- Line 118-119: `if self._is_cancelled.is_set(): break`. -/
  | resultBreak (s : WorkerState) :
      s.pc = .resultCheck → s.handled < s.submitted → s.cancelled = true →
      WStep n s .check { s with pc := .done }
  /-- The cancellation check passes. -/
  | resultPass (s : WorkerState) :
      s.pc = .resultCheck → s.handled < s.submitted → s.cancelled = false →
      WStep n s .check { s with pc := .resultWaiting }
  /-- Line 121 then 123-133: wait returns and one completed future is
  handled. -/
  | handleOne (s : WorkerState) :
      s.pc = .resultWaiting → s.pauseSet = true →
      WStep n s .handle
        { s with pc := .resultCheck, handled := s.handled + 1 }
  /-- `ProcessingWorker.cancel` (lines 248-251): set `_is_cancelled`, set
  `_is_paused`. -/
  | cancelCall (s : WorkerState) :
      WStep n s .cancelCall { s with cancelled := true, pauseSet := true }
  /-- `ProcessingWorker.pause` (lines 240-242). -/
  | pauseCall (s : WorkerState) :
      WStep n s .pauseCall { s with pauseSet := false }
  /-- `ProcessingWorker.resume` (lines 244-246). -/
  | resumeCall (s : WorkerState) :
      WStep n s .resumeCall { s with pauseSet := true }

/-- A finite execution: the list of labels of consecutive steps. -/
inductive WExec (n : Nat) : WorkerState → List WLabel → WorkerState → Prop where
  | nil (s : WorkerState) : WExec n s [] s
  | cons {s s' s'' : WorkerState} {l : WLabel} {ls : List WLabel} :
      WStep n s l s' → WExec n s' ls s'' → WExec n s (l :: ls) s''

/-- The worker thread is at one of its cancellation checks (or past the
loops). -/
def AtCheck (s : WorkerState) : Prop :=
  (∃ i, s.pc = WPC.submitCheck i) ∨ s.pc = WPC.resultCheck ∨ s.pc = WPC.done

/-!
## Concrete instances used by witnesses and counterexamples
-/

/-- A concrete font measure: width = number of characters. -/
def mLenM : Str → Int := fun s => (s.length : Int)

/-- Concrete settings, left panel. -/
def sLeftW : Settings := ⟨300, strL "left", 12, true, false, false, false, true, 1, (0, 0)⟩

/-- Concrete settings, bottom panel, narrow `panel_width`. -/
def sBotC : Settings := ⟨30, strL "bottom", 2, false, false, false, false, true, 1, (0, 0)⟩

/-- Empty per-row data. -/
def eEmpty : ExcelData := ⟨[], [], [], []⟩

/-- Row data with an INN only. -/
def eInnW : ExcelData := ⟨strL "7701234567", [], [], []⟩

/-- A fixed text of ten four-letter words. -/
def cexText : Str := strL "aaaa bbbb cccc dddd eeee ffff gggg hhhh iiii jjjj"

/-- A one-row worksheet with position `1.1` at row 11, column A. -/
def witSheet : SheetModel := ⟨fun r c => if r = 11 ∧ c = 0 then some (strL "1.1") else none⟩

/-- A one-entry parsed-data dict. -/
def witEntries : List (Str × List (Str × Str)) := [(strL "1-1", [])]

/-- A cancelled worker state sitting at the first submission check. -/
def witWS : WorkerState := ⟨WPC.submitCheck 0, true, true, 0, 0⟩

/-- The layout produced by `processImagePure` on the concrete left-panel
witness input (settings `sLeftW`, data `eInnW`, fixed text `"Approved"`,
source 200×100, no stamp). -/
def witLayoutL : Layout :=
  ⟨500, 105, (300, 0), (0, 0, 300, 105), [55], false, none⟩

/-- The layout produced by `processImagePure` on the same witness input with
a 400×50 stamp at scale 1. -/
def witLayoutSt : Layout :=
  ⟨500, 180, (300, 0), (0, 0, 300, 180), [55], false, some (10, 95, 280, 35)⟩

/-! ### Word-splitting lemmas -/

theorem wordsAux_append_space :
    ∀ (a : Str) (acc : Str) (b : Str),
      wordsAux acc (a ++ ' ' :: b) = wordsAux acc a ++ wordsAux [] b := by
  intro a
  induction a with
  | nil =>
    intro acc b
    simp only [List.nil_append, wordsAux]
    have hsp : isPySpace ' ' = true := by decide
    rw [hsp]
    by_cases h : acc.isEmpty
    · simp [h]
    · simp [h]
  | cons c cs ih =>
    intro acc b
    simp only [List.cons_append, wordsAux]
    by_cases hsp : isPySpace c
    · rw [if_pos hsp, if_pos hsp]
      by_cases h : acc.isEmpty
      · simp [h, ih]
      · simp [h, ih]
    · rw [if_neg hsp, if_neg hsp]
      exact ih (c :: acc) b

/-- Splitting distributes over a single separating space. -/
theorem pyWords_append_space (a b : Str) :
    pyWords (a ++ ' ' :: b) = pyWords a ++ pyWords b := by
  unfold pyWords
  exact wordsAux_append_space a [] b

theorem wordsAux_all_nonspace :
    ∀ (w : Str) (acc : Str), (∀ c ∈ w, isPySpace c = false) →
      wordsAux acc w =
        if (acc.reverse ++ w).isEmpty then [] else [acc.reverse ++ w] := by
  intro w
  induction w with
  | nil =>
    intro acc _
    simp [wordsAux, List.isEmpty_iff]
  | cons c cs ih =>
    intro acc h
    have hc : isPySpace c = false := h c (List.mem_cons_self c cs)
    have hcs : ∀ x ∈ cs, isPySpace x = false := fun x hx => h x (List.mem_cons_of_mem c hx)
    simp only [wordsAux, hc]
    rw [if_neg (by simp [hc])]
    rw [ih (c :: acc) hcs]
    simp

/-- A single word splits to exactly itself. -/
theorem pyWords_of_isWord {w : Str} (h : IsWord w) : pyWords w = [w] := by
  unfold pyWords
  rw [wordsAux_all_nonspace w [] h.2]
  simp [List.isEmpty_iff, h.1]

theorem wordsAux_words_are_words :
    ∀ (s : Str) (acc : Str), (∀ c ∈ acc, isPySpace c = false) →
      ∀ w ∈ wordsAux acc s, IsWord w := by
  intro s
  induction s with
  | nil =>
    intro acc hacc w hw
    simp only [wordsAux] at hw
    by_cases h : acc.isEmpty
    · simp [h] at hw
    · rw [if_neg h] at hw
      simp only [List.mem_singleton] at hw
      subst hw
      refine ⟨by simpa [List.isEmpty_iff] using h, ?_⟩
      intro c hc
      exact hacc c (List.mem_reverse.mp hc)
  | cons c cs ih =>
    intro acc hacc w hw
    simp only [wordsAux] at hw
    by_cases hsp : isPySpace c
    · rw [if_pos hsp] at hw
      by_cases h : acc.isEmpty
      · rw [if_pos h] at hw
        exact ih [] (by simp) w hw
      · rw [if_neg h] at hw
        rcases List.mem_cons.mp hw with h1 | h2
        · subst h1
          refine ⟨by simpa [List.isEmpty_iff] using h, ?_⟩
          intro x hx
          exact hacc x (List.mem_reverse.mp hx)
        · exact ih [] (by simp) w h2
    · rw [if_neg hsp] at hw
      refine ih (c :: acc) ?_ w hw
      intro x hx
      rcases List.mem_cons.mp hx with h1 | h2
      · subst h1; simpa using hsp
      · exact hacc x h2

/-- Every word produced by `pyWords` is a real word. -/
theorem pyWords_are_words (s : Str) : ∀ w ∈ pyWords s, IsWord w :=
  wordsAux_words_are_words s [] (by simp)

/-! ### Wrap-loop lemmas -/

/-- The words of the lines produced by the wrap loop are exactly the current
line's words followed by the remaining words. -/
theorem wrapLoop_words (m : Str → Int) (mw : Int) :
    ∀ (ws : List Str) (cur : Str), (∀ w ∈ ws, IsWord w) →
      (wrapLoop m mw cur ws).flatMap pyWords = pyWords cur ++ ws := by
  intro ws
  induction ws with
  | nil =>
    intro cur _
    simp [wrapLoop]
  | cons w ws ih =>
    intro cur h
    have hw : IsWord w := h w (List.mem_cons_self w ws)
    have hws : ∀ x ∈ ws, IsWord x := fun x hx => h x (List.mem_cons_of_mem w hx)
    simp only [wrapLoop]
    by_cases hfit : m (cur ++ ' ' :: w) ≤ mw
    · rw [if_pos hfit, ih _ hws, pyWords_append_space, pyWords_of_isWord hw]
      simp
    · rw [if_neg hfit]
      simp only [List.flatMap_cons]
      rw [ih _ hws, pyWords_of_isWord hw]
      simp

/-- Every line the wrap loop produces is a single word or fits in the width;
the invariant is carried by the current line. -/
theorem wrapLoop_width (m : Str → Int) (mw : Int) :
    ∀ (ws : List Str) (cur : Str), (∀ w ∈ ws, IsWord w) →
      (pyWords cur).length ≤ 1 ∨ m cur ≤ mw →
      ∀ l ∈ wrapLoop m mw cur ws, (pyWords l).length ≤ 1 ∨ m l ≤ mw := by
  intro ws
  induction ws with
  | nil =>
    intro cur _ hcur l hl
    simp only [wrapLoop, List.mem_singleton] at hl
    subst hl; exact hcur
  | cons w ws ih =>
    intro cur h hcur l hl
    have hw : IsWord w := h w (List.mem_cons_self w ws)
    have hws : ∀ x ∈ ws, IsWord x := fun x hx => h x (List.mem_cons_of_mem w hx)
    simp only [wrapLoop] at hl
    by_cases hfit : m (cur ++ ' ' :: w) ≤ mw
    · rw [if_pos hfit] at hl
      exact ih _ hws (Or.inr hfit) l hl
    · rw [if_neg hfit] at hl
      rcases List.mem_cons.mp hl with h1 | h2
      · subst h1; exact hcur
      · exact ih _ hws (Or.inl (by rw [pyWords_of_isWord hw]; simp)) l h2

/-- Per paragraph: no word is lost, duplicated, split, or reordered, and an
empty paragraph contributes exactly one empty line. -/
theorem wrapParagraph_words (m : Str → Int) (mw : Int) (p : Str) :
    (wrapParagraph m mw p).flatMap pyWords = pyWords p ∧
      (pyWords p = [] → wrapParagraph m mw p = [[]]) := by
  unfold wrapParagraph
  cases hp : pyWords p with
  | nil => simp [pyWords, wordsAux]
  | cons w ws =>
    constructor
    · have hmem : ∀ x ∈ pyWords p, IsWord x := pyWords_are_words p
      rw [hp] at hmem
      rw [wrapLoop_words m mw ws w (fun x hx => hmem x (List.mem_cons_of_mem w hx))]
      rw [pyWords_of_isWord (hmem w (List.mem_cons_self w ws))]
      simp
    · intro h
      exact absurd h (List.cons_ne_nil w ws)

/-- Per paragraph: every produced line with at least two words fits. -/
theorem wrapParagraph_width (m : Str → Int) (mw : Int) (p : Str) :
    ∀ l ∈ wrapParagraph m mw p, 2 ≤ (pyWords l).length → m l ≤ mw := by
  unfold wrapParagraph
  cases hp : pyWords p with
  | nil =>
    intro l hl
    simp only [List.mem_singleton] at hl
    subst hl
    intro h
    simp [pyWords, wordsAux] at h
  | cons w ws =>
    intro l hl h2
    have hmem : ∀ x ∈ pyWords p, IsWord x := pyWords_are_words p
    rw [hp] at hmem
    have hw : IsWord w := hmem w (List.mem_cons_self w ws)
    have := wrapLoop_width m mw ws w
      (fun x hx => hmem x (List.mem_cons_of_mem w hx))
      (Or.inl (by rw [pyWords_of_isWord hw]; simp)) l hl
    rcases this with h1 | h1
    · omega
    · exact h1

/-- C3: `_wrap_text` preserves all words per paragraph — the lines are the
concatenation of per-paragraph wrappings, within a paragraph the lines'
words concatenate to exactly the paragraph's whitespace-separated words
(none lost, duplicated, split, or reordered), an empty paragraph contributes
one empty line — and every returned line holding two or more words measures
at most `max_width`. -/
theorem wrap_text_correct (m : Str → Int) (text : Str) (mw : Int) :
    wrapText m text mw = (splitNl text).flatMap (wrapParagraph m mw) ∧
    (∀ p ∈ splitNl text,
      (wrapParagraph m mw p).flatMap pyWords = pyWords p ∧
      (pyWords p = [] → wrapParagraph m mw p = [[]])) ∧
    (∀ l ∈ wrapText m text mw, 2 ≤ (pyWords l).length → m l ≤ mw) := by
  refine ⟨rfl, fun p _ => wrapParagraph_words m mw p, ?_⟩
  intro l hl h2
  rcases List.mem_flatMap.mp hl with ⟨p, _, hlp⟩
  exact wrapParagraph_width m mw p l hlp h2

/-- Witness for C3 at a concrete wrap: `"aa bb cc"` at width 7 splits into
`["aa bb", "cc"]`; words are preserved and the two-word line fits. -/
theorem wrap_text_correct_witness :
    ((wrapParagraph mLenM 7 (strL "aa bb cc")).flatMap pyWords =
      pyWords (strL "aa bb cc")) ∧
    mLenM (strL "aa bb") ≤ 7 :=
  ⟨((wrap_text_correct mLenM (strL "aa bb cc") 7).2.1 (strL "aa bb cc")
      (by decide)).1,
   (wrap_text_correct mLenM (strL "aa bb cc") 7).2.2 (strL "aa bb")
      (by decide) (by decide)⟩

/-! ### Dissecting successful `process_image` runs -/

theorem drawPass_ok_parts (m : Str → Int) (S : Settings) (E : ExcelData)
    (fixed : List Str) (stamp : Option PILImage) (panel : Int × Int × Int × Int)
    (d : List Int × Bool × Option (Int × Int × Int × Int))
    (h : drawPass m S E fixed stamp panel = .ok d) :
    d.1 = fixedLinesYs m (S.panel_width - 20) (S.font_size + 8)
        (panel.2.1 + 10 + excelBlockHeight m S E (S.panel_width - 20) (S.font_size + 8) + 25)
        fixed ∧
    d.2.1 = (d.1.any fun y => decide (panel.2.2.2 < y + (S.font_size + 8))) := by
  cases stamp with
  | none =>
    simp only [drawPass, pure, Except.pure, Except.ok.injEq] at h
    subst h
    exact ⟨rfl, rfl⟩
  | some st =>
    simp only [drawPass] at h
    by_cases hen : S.stamp_enabled
    · rw [if_pos hen] at h
      cases hfit : stampFitSize S.panel_width st S.stamp_scale with
      | error e =>
        rw [hfit] at h
        simp only [Bind.bind, Except.bind] at h
        exact absurd h (by simp)
      | ok wh =>
        rw [hfit] at h
        simp only [Bind.bind, Except.bind, pure, Except.pure, Except.ok.injEq] at h
        subst h
        exact ⟨rfl, rfl⟩
    · rw [if_neg hen] at h
      simp only [pure, Except.pure, Except.ok.injEq] at h
      subst h
      exact ⟨rfl, rfl⟩

theorem drawPass_ok_stamp (m : Str → Int) (S : Settings) (E : ExcelData)
    (fixed : List Str) (st : PILImage) (panel : Int × Int × Int × Int)
    (d : List Int × Bool × Option (Int × Int × Int × Int))
    (hen : S.stamp_enabled = true)
    (h : drawPass m S E fixed (some st) panel = .ok d) :
    ∃ wh, stampFitSize S.panel_width st S.stamp_scale = .ok wh ∧
      d.2.2 = some (panel.1 + 10 + S.stampOffset.1,
        panel.2.1 + 10 + excelBlockHeight m S E (S.panel_width - 20) (S.font_size + 8) + 25 +
          fixedTextsHeight m (S.panel_width - 20) (S.font_size + 8) fixed + 20 +
          S.stampOffset.2,
        wh.1, wh.2) := by
  simp only [drawPass] at h
  rw [if_pos hen] at h
  cases hfit : stampFitSize S.panel_width st S.stamp_scale with
  | error e =>
    rw [hfit] at h
    simp only [Bind.bind, Except.bind] at h
    exact absurd h (by simp)
  | ok wh =>
    rw [hfit] at h
    simp only [Bind.bind, Except.bind, pure, Except.pure, Except.ok.injEq] at h
    subst h
    exact ⟨wh, rfl, rfl⟩

theorem processImagePure_ok_left (m : Str → Int) (S : Settings) (E : ExcelData)
    (fixed : List Str) (orig : PILImage) (stamp : Option PILImage) (r : Layout)
    (hpos : S.position = strL "left")
    (h : processImagePure m S E fixed orig stamp = .ok r) :
    ∃ req d, requiredHeightLeft m S E fixed stamp = .ok req ∧
      drawPass m S E fixed stamp (0, 0, S.panel_width, max orig.h (req + 20)) = .ok d ∧
      r = ⟨orig.w + S.panel_width, max orig.h (req + 20), (S.panel_width, 0),
        (0, 0, S.panel_width, max orig.h (req + 20)), d.1, d.2.1, d.2.2⟩ := by
  simp only [processImagePure] at h
  rw [if_pos hpos] at h
  cases hreq : requiredHeightLeft m S E fixed stamp with
  | error e =>
    rw [hreq] at h
    simp only [Bind.bind, Except.bind] at h
    exact absurd h (by simp)
  | ok req =>
    rw [hreq] at h
    simp only [Bind.bind, Except.bind] at h
    cases hd : drawPass m S E fixed stamp (0, 0, S.panel_width, max orig.h (req + 20)) with
    | error e =>
      rw [hd] at h
      exact absurd h (by simp)
    | ok d =>
      rw [hd] at h
      simp only [pure, Except.pure, Except.ok.injEq] at h
      subst h
      exact ⟨req, d, rfl, hd, rfl⟩

theorem processImagePure_ok_bottom (m : Str → Int) (S : Settings) (E : ExcelData)
    (fixed : List Str) (orig : PILImage) (stamp : Option PILImage) (r : Layout)
    (hpos : ¬S.position = strL "left")
    (h : processImagePure m S E fixed orig stamp = .ok r) :
    ∃ ph d, panelHeightBottom m S E fixed stamp orig = .ok ph ∧
      drawPass m S E fixed stamp (0, orig.h, orig.w, orig.h + ph) = .ok d ∧
      r = ⟨orig.w, orig.h + ph, (0, 0),
        (0, orig.h, orig.w, orig.h + ph), d.1, d.2.1, d.2.2⟩ := by
  simp only [processImagePure] at h
  rw [if_neg hpos] at h
  cases hph : panelHeightBottom m S E fixed stamp orig with
  | error e =>
    rw [hph] at h
    simp only [Bind.bind, Except.bind] at h
    exact absurd h (by simp)
  | ok ph =>
    rw [hph] at h
    simp only [Bind.bind, Except.bind] at h
    cases hd : drawPass m S E fixed stamp (0, orig.h, orig.w, orig.h + ph) with
    | error e =>
      rw [hd] at h
      exact absurd h (by simp)
    | ok d =>
      rw [hd] at h
      simp only [pure, Except.pure, Except.ok.injEq] at h
      subst h
      exact ⟨ph, d, rfl, hd, rfl⟩

/-! ### Nonnegativity facts feeding the left-panel sizing bound -/

theorem pyInt_nonneg {q : ℚ} (h : 0 ≤ q) : 0 ≤ pyInt q := by
  unfold pyInt
  rw [if_pos h]
  exact Int.floor_nonneg.mpr h

theorem stampScaledW_nonneg (st : PILImage) (scale : ℚ) (hw : 0 ≤ st.w)
    (hs : 0 ≤ scale) : 0 ≤ stampScaledW st scale :=
  pyInt_nonneg (mul_nonneg (by exact_mod_cast hw) hs)

theorem stampScaledH_nonneg (st : PILImage) (scale : ℚ) (hh : 0 ≤ st.h)
    (hs : 0 ≤ scale) : 0 ≤ stampScaledH st scale :=
  pyInt_nonneg (mul_nonneg (by exact_mod_cast hh) hs)

theorem stampFitHeight_nonneg {limit : Int} {st : PILImage} {scale : ℚ} {sh : Int}
    (hlim : 0 ≤ limit) (hh : 0 ≤ st.h) (hs : 0 ≤ scale)
    (h : stampFitHeight limit st scale = .ok sh) : 0 ≤ sh := by
  have hshn : 0 ≤ stampScaledH st scale := stampScaledH_nonneg st scale hh hs
  unfold stampFitHeight at h
  by_cases hc : limit < stampScaledW st scale
  · rw [if_pos hc] at h
    by_cases h0 : stampScaledW st scale = 0
    · rw [if_pos h0] at h
      exact absurd h (by simp)
    · rw [if_neg h0] at h
      simp only [Except.ok.injEq] at h
      subst h
      refine pyInt_nonneg (mul_nonneg (by exact_mod_cast hshn) (div_nonneg ?_ ?_))
      · exact_mod_cast hlim
      · exact_mod_cast le_trans hlim (le_of_lt hc)
  · rw [if_neg hc] at h
    simp only [Except.ok.injEq] at h
    subst h
    exact hshn

theorem fixedTextsHeight_nonneg (m : Str → Int) (w : Int) {lh : Int} (hlh : 0 ≤ lh) :
    ∀ ts : List Str, 0 ≤ fixedTextsHeight m w lh ts := by
  intro ts
  induction ts with
  | nil => simp [fixedTextsHeight]
  | cons t ts ih =>
    simp only [fixedTextsHeight]
    have h1 : (0 : Int) ≤ if t ≠ [] then ((wrapText m t w).length : Int) * lh else 0 := by
      split
      · exact mul_nonneg (Int.natCast_nonneg _) hlh
      · exact le_refl 0
    omega

/-- Each of `k` successive drawn lines ends within `k` line heights of the
start. -/
theorem lineYs_le {lh : Int} (hlh : 0 ≤ lh) :
    ∀ (k : Nat) (y : Int), ∀ z ∈ lineYs lh y k, z + lh ≤ y + (k : Int) * lh := by
  intro k
  induction k with
  | zero =>
    intro y z hz
    simp [lineYs] at hz
  | succ k ih =>
    intro y z hz
    simp only [lineYs, List.mem_cons] at hz
    have hdist : (((k : Nat) + 1 : Nat) : Int) * lh = (k : Int) * lh + lh := by
      push_cast
      ring
    rcases hz with rfl | h2
    · have : 0 ≤ (k : Int) * lh := mul_nonneg (Int.natCast_nonneg k) hlh
      omega
    · have := ih (y + lh) z h2
      omega

/-- Every drawn fixed-text line, starting at `start`, ends no lower than
`start` plus the height the sizing pass reserves for the fixed texts at the
same wrap width. -/
theorem fixedLinesYs_le (m : Str → Int) (w : Int) {lh : Int} (hlh : 0 ≤ lh) :
    ∀ (ts : List Str) (start : Int), ∀ y ∈ fixedLinesYs m w lh start ts,
      y + lh ≤ start + fixedTextsHeight m w lh ts := by
  intro ts
  induction ts with
  | nil =>
    intro start y hy
    simp [fixedLinesYs] at hy
  | cons t ts ih =>
    intro start y hy
    simp only [fixedLinesYs] at hy
    simp only [fixedTextsHeight]
    by_cases ht : t ≠ []
    · rw [if_pos ht] at hy
      rw [if_pos ht]
      have hrest : 0 ≤ fixedTextsHeight m w lh ts := fixedTextsHeight_nonneg m w hlh ts
      rcases List.mem_append.mp hy with h1 | h2
      · have := lineYs_le hlh (wrapText m t w).length start y h1
        omega
      · have := ih (start + ((wrapText m t w).length : Int) * lh) y h2
        omega
    · rw [if_neg ht] at hy
      rw [if_neg ht]
      have := ih start y hy
      omega

/-- With sane parameters (panel at least 20 wide, nonnegative font size,
scale, and stamp dimensions), the reserved left-panel height is at least its
stampless base. -/
theorem requiredHeightLeft_ge (m : Str → Int) (S : Settings) (E : ExcelData)
    (fixed : List Str) (stamp : Option PILImage) (req : Int)
    (hpw : 20 ≤ S.panel_width) (hsc : 0 ≤ S.stamp_scale)
    (hdims : ∀ st, stamp = some st → 0 ≤ st.w ∧ 0 ≤ st.h)
    (h : requiredHeightLeft m S E fixed stamp = .ok req) :
    20 + excelBlockHeight m S E (S.panel_width - 20) (S.font_size + 8) + 25 +
      fixedTextsHeight m (S.panel_width - 20) (S.font_size + 8) fixed ≤ req := by
  cases stamp with
  | none =>
    simp only [requiredHeightLeft, pure, Except.pure, Except.ok.injEq] at h
    omega
  | some st =>
    simp only [requiredHeightLeft] at h
    by_cases hen : S.stamp_enabled
    · rw [if_pos hen] at h
      cases hfit : stampFitHeight (S.panel_width - 20) st S.stamp_scale with
      | error e =>
        rw [hfit] at h
        simp only [Bind.bind, Except.bind] at h
        exact absurd h (by simp)
      | ok sh =>
        rw [hfit] at h
        simp only [Bind.bind, Except.bind, pure, Except.pure, Except.ok.injEq] at h
        have hsh : 0 ≤ sh :=
          stampFitHeight_nonneg (by omega) (hdims st rfl).2 hsc hfit
        omega
    · rw [if_neg hen] at h
      simp only [pure, Except.pure, Except.ok.injEq] at h
      omega

/-- C2 (amended): with the panel on the left — where the sizing pass and the
drawing pass wrap at the same width `panel_width - 20` — and sane parameters
(`panel_width ≥ 20`, nonnegative font size, stamp scale and stamp
dimensions), the out-of-bounds branch at line 270 is never taken: every
drawn fixed-text line satisfies `current_y + line_height ≤ panel_area[3]`.
In the bottom position the sizing pass wraps at `original.width - 20` while
the drawing pass wraps at `panel_width - 20`, and the branch can be taken
(see the counterexample). -/
theorem panel_fits_fixed_texts_left (m : Str → Int) (S : Settings) (E : ExcelData)
    (fixed : List Str) (orig : PILImage) (stamp : Option PILImage) (r : Layout)
    (hpos : S.position = strL "left")
    (hpw : 20 ≤ S.panel_width)
    (hfs : 0 ≤ S.font_size)
    (hsc : 0 ≤ S.stamp_scale)
    (hdims : ∀ st, stamp = some st → 0 ≤ st.w ∧ 0 ≤ st.h)
    (h : processImagePure m S E fixed orig stamp = .ok r) :
    r.overflow = false ∧
      ∀ y ∈ r.fixedYs, y + (S.font_size + 8) ≤ r.panelArea.2.2.2 := by
  obtain ⟨req, d, hreq, hd, rfl⟩ :=
    processImagePure_ok_left m S E fixed orig stamp r hpos h
  obtain ⟨hys, hovf⟩ := drawPass_ok_parts m S E fixed stamp _ d hd
  have hproj1 : ((0, 0, S.panel_width, max orig.h (req + 20)) :
      Int × Int × Int × Int).2.1 = 0 := rfl
  have hproj3 : ((0, 0, S.panel_width, max orig.h (req + 20)) :
      Int × Int × Int × Int).2.2.2 = max orig.h (req + 20) := rfl
  have hbound : ∀ y ∈ d.1, y + (S.font_size + 8) ≤ max orig.h (req + 20) := by
    intro y hy
    rw [hys] at hy
    have h1 := fixedLinesYs_le m (S.panel_width - 20) (by omega) fixed
      ((0, 0, S.panel_width, max orig.h (req + 20)).2.1 + 10 +
        excelBlockHeight m S E (S.panel_width - 20) (S.font_size + 8) + 25) y hy
    rw [hproj1] at h1
    have h2 := requiredHeightLeft_ge m S E fixed stamp req hpw hsc hdims hreq
    have h3 : req + 20 ≤ max orig.h (req + 20) := le_max_right _ _
    omega
  refine ⟨?_, fun y hy => hbound y hy⟩
  rw [hovf, List.any_eq_false]
  intro y hy
  simp only [decide_eq_false_iff_not, decide_eq_true_eq]
  have := hbound y hy
  omega

/-- C2 counterexample: in the bottom position (panel 30 wide on a 1000-wide
image, font size 2, one fixed text of ten four-letter words, width = length
measure) the sizing pass reserves one line while the drawing pass wraps into
five lines, and the out-of-bounds branch fires. -/
theorem panel_overflow_bottom_cex :
    Except.map Layout.overflow
        (processImagePure mLenM sBotC eEmpty [cexText] ⟨1000, 10⟩ none) =
      Except.ok true := by rfl

/-- Witness for the amended C2 on a concrete left-panel run. -/
theorem panel_fits_fixed_texts_left_witness : witLayoutL.overflow = false :=
  (panel_fits_fixed_texts_left mLenM sLeftW eInnW [strL "Approved"] ⟨200, 100⟩
    none witLayoutL rfl (by decide) (by decide) (by decide)
    (by intro st hst; cases hst)
    (by rfl)).1

/-- C1: the panel geometry of `process_image`.  With position `"left"` the
canvas is `(original.width + panel_width) × max(original.height,
required_height + 20)`, the source is pasted at `(panel_width, 0)` and the
panel rectangle is `(0, 0, panel_width, new_height)`; with any other
position the canvas is `original.width × (original.height + panel_height)`,
the source is pasted at `(0, 0)` and the panel rectangle is
`(0, original.height, new_width, new_height)`. -/
theorem process_image_panel_geometry (m : Str → Int) (S : Settings) (E : ExcelData)
    (fixed : List Str) (orig : PILImage) (stamp : Option PILImage) (r : Layout)
    (h : processImagePure m S E fixed orig stamp = .ok r) :
    (S.position = strL "left" →
      ∃ req, requiredHeightLeft m S E fixed stamp = .ok req ∧
        r.canvasW = orig.w + S.panel_width ∧
        r.canvasH = max orig.h (req + 20) ∧
        r.pastePos = (S.panel_width, 0) ∧
        r.panelArea = (0, 0, S.panel_width, r.canvasH)) ∧
    (S.position ≠ strL "left" →
      ∃ ph, panelHeightBottom m S E fixed stamp orig = .ok ph ∧
        r.canvasW = orig.w ∧
        r.canvasH = orig.h + ph ∧
        r.pastePos = (0, 0) ∧
        r.panelArea = (0, orig.h, r.canvasW, r.canvasH)) := by
  constructor
  · intro hpos
    obtain ⟨req, d, hreq, _, rfl⟩ :=
      processImagePure_ok_left m S E fixed orig stamp r hpos h
    exact ⟨req, hreq, rfl, rfl, rfl, rfl⟩
  · intro hpos
    obtain ⟨ph, d, hph, _, rfl⟩ :=
      processImagePure_ok_bottom m S E fixed orig stamp r hpos h
    exact ⟨ph, hph, rfl, rfl, rfl, rfl⟩

/-- Witness for C1 on the concrete left-panel input. -/
theorem process_image_panel_geometry_witness :
    (sLeftW.position = strL "left" →
      ∃ req, requiredHeightLeft mLenM sLeftW eInnW [strL "Approved"] none = .ok req ∧
        witLayoutL.canvasW = (⟨200, 100⟩ : PILImage).w + sLeftW.panel_width ∧
        witLayoutL.canvasH = max (⟨200, 100⟩ : PILImage).h (req + 20) ∧
        witLayoutL.pastePos = (sLeftW.panel_width, 0) ∧
        witLayoutL.panelArea = (0, 0, sLeftW.panel_width, witLayoutL.canvasH)) ∧
    (sLeftW.position ≠ strL "left" →
      ∃ ph, panelHeightBottom mLenM sLeftW eInnW [strL "Approved"] none ⟨200, 100⟩ = .ok ph ∧
        witLayoutL.canvasW = (⟨200, 100⟩ : PILImage).w ∧
        witLayoutL.canvasH = (⟨200, 100⟩ : PILImage).h + ph ∧
        witLayoutL.pastePos = (0, 0) ∧
        witLayoutL.panelArea =
          (0, (⟨200, 100⟩ : PILImage).h, witLayoutL.canvasW, witLayoutL.canvasH)) :=
  process_image_panel_geometry mLenM sLeftW eInnW [strL "Approved"] ⟨200, 100⟩
    none witLayoutL (by rfl)

/-- The drawn stamp size always obeys the `panel_width - 20` cap. -/
theorem stampFitSize_spec (pw : Int) (st : PILImage) (scale : ℚ) (wh : Int × Int)
    (h : stampFitSize pw st scale = .ok wh) :
    (if pw - 20 < stampScaledW st scale then
      wh.1 = pw - 20 ∧
      wh.2 = pyInt ((stampScaledH st scale : ℚ) *
        (((pw - 20 : Int) : ℚ) / (stampScaledW st scale : ℚ)))
    else wh = (stampScaledW st scale, stampScaledH st scale)) ∧
    wh.1 ≤ pw - 20 := by
  simp only [stampFitSize] at h
  by_cases hc : pw - 20 < stampScaledW st scale
  · rw [if_pos hc] at h
    by_cases h0 : stampScaledW st scale = 0
    · rw [if_pos h0] at h
      exact absurd h (by simp)
    · rw [if_neg h0] at h
      simp only [Except.ok.injEq] at h
      subst h
      rw [if_pos hc]
      exact ⟨⟨rfl, rfl⟩, le_refl _⟩
  · rw [if_neg hc] at h
    simp only [Except.ok.injEq] at h
    subst h
    rw [if_neg hc]
    exact ⟨rfl, by omega⟩

/-- C7: when a stamp is loaded and enabled, the drawn stamp's size is
`(int(w·scale), int(h·scale))`, except that a scaled width over
`panel_width - 20` is clamped to exactly `panel_width - 20` with the height
shrunk by the ratio `(panel_width - 20) / scaled_width`; either way the
drawn width never exceeds `panel_width - 20`. -/
theorem process_image_stamp_capped (m : Str → Int) (S : Settings) (E : ExcelData)
    (fixed : List Str) (orig : PILImage) (st : PILImage) (r : Layout)
    (hen : S.stamp_enabled = true)
    (h : processImagePure m S E fixed orig (some st) = .ok r) :
    ∃ x y wh, stampFitSize S.panel_width st S.stamp_scale = .ok wh ∧
      r.stampDraw = some (x, y, wh.1, wh.2) ∧
      (if S.panel_width - 20 < stampScaledW st S.stamp_scale then
        wh.1 = S.panel_width - 20 ∧
        wh.2 = pyInt ((stampScaledH st S.stamp_scale : ℚ) *
          (((S.panel_width - 20 : Int) : ℚ) / (stampScaledW st S.stamp_scale : ℚ)))
      else wh = (stampScaledW st S.stamp_scale, stampScaledH st S.stamp_scale)) ∧
      wh.1 ≤ S.panel_width - 20 := by
  by_cases hpos : S.position = strL "left"
  · obtain ⟨req, d, _, hd, rfl⟩ :=
      processImagePure_ok_left m S E fixed orig (some st) r hpos h
    obtain ⟨wh, hfit, hsd⟩ := drawPass_ok_stamp m S E fixed st _ d hen hd
    obtain ⟨hshape, hle⟩ := stampFitSize_spec S.panel_width st S.stamp_scale wh hfit
    exact ⟨_, _, wh, hfit, hsd, hshape, hle⟩
  · obtain ⟨ph, d, _, hd, rfl⟩ :=
      processImagePure_ok_bottom m S E fixed orig (some st) r hpos h
    obtain ⟨wh, hfit, hsd⟩ := drawPass_ok_stamp m S E fixed st _ d hen hd
    obtain ⟨hshape, hle⟩ := stampFitSize_spec S.panel_width st S.stamp_scale wh hfit
    exact ⟨_, _, wh, hfit, hsd, hshape, hle⟩

/-- The concrete left-panel run with a 400×50 stamp at scale 1 evaluates to
`witLayoutSt` (stamp clamped from 400 to 280 wide, height 50 → 35). -/
theorem processImagePure_stamp_eq :
    processImagePure mLenM sLeftW eInnW [strL "Approved"] ⟨200, 100⟩ (some ⟨400, 50⟩) =
      .ok witLayoutSt := by
  have hreq : requiredHeightLeft mLenM sLeftW eInnW [strL "Approved"]
      (some ⟨400, 50⟩) = .ok 160 := by
    simp only [requiredHeightLeft, stampFitHeight]
    norm_num [stampScaledW, stampScaledH, pyInt, sLeftW]
    decide
  have hfitS : stampFitSize sLeftW.panel_width ⟨400, 50⟩ sLeftW.stamp_scale =
      .ok (280, 35) := by
    simp only [stampFitSize]
    norm_num [stampScaledW, stampScaledH, pyInt, sLeftW]
  have hdp : drawPass mLenM sLeftW eInnW [strL "Approved"] (some ⟨400, 50⟩)
      (0, 0, sLeftW.panel_width, max (⟨200, 100⟩ : PILImage).h (160 + 20)) =
      .ok ([55], false, some (10, 95, 280, 35)) := by
    simp only [drawPass]
    rw [if_pos (by decide : sLeftW.stamp_enabled = true)]
    rw [hfitS]
    simp only [Bind.bind, Except.bind, pure, Except.pure, Except.ok.injEq]
    decide
  simp only [processImagePure]
  rw [if_pos (by decide : sLeftW.position = strL "left")]
  rw [hreq]
  simp only [Bind.bind, Except.bind]
  rw [hdp]
  simp only [pure, Except.pure, Except.ok.injEq]
  decide

/-- Witness for C7 on the concrete stamped run. -/
theorem process_image_stamp_capped_witness :
    ∃ x y wh, stampFitSize sLeftW.panel_width ⟨400, 50⟩ sLeftW.stamp_scale = .ok wh ∧
      witLayoutSt.stampDraw = some (x, y, wh.1, wh.2) ∧
      (if sLeftW.panel_width - 20 < stampScaledW ⟨400, 50⟩ sLeftW.stamp_scale then
        wh.1 = sLeftW.panel_width - 20 ∧
        wh.2 = pyInt ((stampScaledH ⟨400, 50⟩ sLeftW.stamp_scale : ℚ) *
          (((sLeftW.panel_width - 20 : Int) : ℚ) /
            (stampScaledW ⟨400, 50⟩ sLeftW.stamp_scale : ℚ)))
      else wh = (stampScaledW ⟨400, 50⟩ sLeftW.stamp_scale,
        stampScaledH ⟨400, 50⟩ sLeftW.stamp_scale)) ∧
      wh.1 ≤ sLeftW.panel_width - 20 :=
  process_image_stamp_capped mLenM sLeftW eInnW [strL "Approved"] ⟨200, 100⟩
    ⟨400, 50⟩ witLayoutSt rfl processImagePure_stamp_eq

/-- C9: `process_image` is total over its interface: whatever opening the
image, the layout arithmetic, or saving do — including failures — it
returns a `(success, message)` pair; a `True` result always carries the
message `"OK"` and a caught exception yields `False` with the exception
text embedded after the error prefix. -/
theorem process_image_total (openRes : Except Str PILImage) (m : Str → Int)
    (S : Settings) (E : ExcelData) (fixed : List Str) (stamp : Option PILImage)
    (saveRes : Layout → Except Str Unit) :
    processImage openRes m S E fixed stamp saveRes = (true, strL "OK") ∨
      ∃ e, processImage openRes m S E fixed stamp saveRes =
        (false, strL "Ошибка обработки: " ++ e) := by
  unfold processImage
  cases hdo : (do
      let orig ← openRes
      let lay ← processImagePure m S E fixed orig stamp
      saveRes lay : Except Str Unit) with
  | error e =>
    right
    exact ⟨e, rfl⟩
  | ok u =>
    left
    rfl

/-! ### Excel lookup (C4) -/

theorem foldl_dictGet_const {α : Type} (k : Str) :
    ∀ (entries : List (Str × α)) (acc : Option α), (∀ e ∈ entries, e.1 ≠ k) →
      entries.foldl (fun a e => if e.1 = k then some e.2 else a) acc = acc := by
  intro entries
  induction entries with
  | nil => intro acc _; rfl
  | cons e es ih =>
    intro acc h
    simp only [List.foldl_cons]
    rw [if_neg (h e (List.mem_cons_self e es))]
    exact ih acc fun x hx => h x (List.mem_cons_of_mem e hx)

theorem parseLoop_keys (sh : SheetModel) :
    ∀ (fuel r : Nat) (entry : Str × List (Str × Str)), entry ∈ parseLoop sh r fuel →
      ∃ n v, sh.cell n 0 = some v ∧ entry.1 = normalizePos v := by
  intro fuel
  induction fuel with
  | zero =>
    intro r entry h
    simp [parseLoop] at h
  | succ fuel ih =>
    intro r entry h
    cases hc : sh.cell r 0 with
    | none =>
      simp only [parseLoop, hc] at h
      simp at h
    | some v =>
      simp only [parseLoop, hc] at h
      by_cases hv : pyStrip v = []
      · rw [if_pos hv] at h
        simp at h
      · rw [if_neg hv] at h
        rcases List.mem_cons.mp h with h1 | h2
        · subst h1
          exact ⟨r, v, hc, rfl⟩
        · exact ih (r + 1) entry h2

/-- C4: `get_data_for_file` looks the filename's stem up in the parsed
data — returning the row stored under that key and `None` when no row has
it — and `parse` stores every row under `normalizePos` of its position cell
(the value as a string, stripped, with every `'.'` replaced by `'-'`), so
position `1.1` is found by file `1-1.png`. -/
theorem excel_lookup_by_stem (entries : List (Str × List (Str × Str))) (f : Str)
    (sh : SheetModel) (fuel : Nat) :
    get_data_for_file entries f = dictGet entries (pathStem f) ∧
    ((∀ e ∈ entries, e.1 ≠ pathStem f) → get_data_for_file entries f = none) ∧
    (∀ entry ∈ parseData sh fuel, ∃ n v, sh.cell n 0 = some v ∧
      entry.1 = normalizePos v) ∧
    pathStem (strL "1-1.png") = normalizePos (strL "1.1") := by
  refine ⟨rfl, ?_, ?_, by decide⟩
  · intro h
    unfold get_data_for_file dictGet
    exact foldl_dictGet_const (pathStem f) entries none h
  · intro entry h
    exact parseLoop_keys sh fuel 11 entry h

/-- Witness for C4: a file with an unmatched stem yields `None`, and the
`1.1 ↔ 1-1.png` correspondence holds. -/
theorem excel_lookup_by_stem_witness :
    get_data_for_file witEntries (strL "2-2.png") = none ∧
      pathStem (strL "1-1.png") = normalizePos (strL "1.1") :=
  ⟨(excel_lookup_by_stem witEntries (strL "2-2.png") witSheet 1).2.1 (by decide),
   (excel_lookup_by_stem witEntries (strL "2-2.png") witSheet 1).2.2.2⟩

/-! ### Checkpoint pending files (C5) -/

theorem mark_processed_mem (s : CPState) (f : Str) :
    ∃ d, mark_processed s f = some d ∧ f ∈ d.processed_files := by
  cases s with
  | none => exact ⟨⟨[], [f], []⟩, rfl, by simp⟩
  | some d => exact ⟨_, rfl, List.mem_append.mpr (Or.inr (by simp))⟩

theorem applyOp_preserves_processed (s : CPState) (op : CPOp) (f : Str)
    (h : ∃ d, s = some d ∧ f ∈ d.processed_files) :
    ∃ d, applyOp s op = some d ∧ f ∈ d.processed_files := by
  obtain ⟨d, rfl, hf⟩ := h
  cases op with
  | proc g => exact ⟨_, rfl, List.mem_append.mpr (Or.inl hf)⟩
  | fail g e => exact ⟨_, rfl, hf⟩

theorem applyOps_preserves_processed (ops : List CPOp) :
    ∀ (s : CPState) (f : Str), (∃ d, s = some d ∧ f ∈ d.processed_files) →
      ∃ d, applyOps s ops = some d ∧ f ∈ d.processed_files := by
  induction ops with
  | nil =>
    intro s f h
    exact h
  | cons op ops ih =>
    intro s f h
    exact ih (applyOp s op) f (applyOp_preserves_processed s op f h)

theorem pending_excludes_processed (s : CPState) (f : Str)
    (h : ∃ d, s = some d ∧ f ∈ d.processed_files) : f ∉ get_pending_files s := by
  obtain ⟨d, rfl, hf⟩ := h
  intro hmem
  simp only [get_pending_files] at hmem
  rcases List.mem_filter.mp hmem with ⟨_, hp⟩
  rw [decide_eq_true_eq] at hp
  exact hp.1 hf

/-- C5: `get_pending_files` returns exactly the elements of `all_files`, in
their original order, that are neither in `processed_files` nor a `"file"`
entry of `failed_files`; the empty state yields `[]`; and a file passed to
`mark_processed` never appears in any later `get_pending_files` result, no
matter which further mark operations run. -/
theorem checkpoint_pending_exact (s : CPState) (d : CPData) (f : Str)
    (ops : List CPOp) :
    get_pending_files (some d) = d.all_files.filter
      (fun x => decide (x ∉ d.processed_files ∧ x ∉ d.failed_files.map Prod.fst)) ∧
    get_pending_files none = [] ∧
    f ∉ get_pending_files (applyOps (mark_processed s f) ops) := by
  refine ⟨rfl, rfl, ?_⟩
  exact pending_excludes_processed _ f
    (applyOps_preserves_processed ops (mark_processed s f) f (mark_processed_mem s f))

/-- Witness for C5: after marking `a.png` processed and failing `b.png`,
`a.png` is not pending. -/
theorem checkpoint_pending_exact_witness :
    strL "a.png" ∉ get_pending_files
      (applyOps (mark_processed none (strL "a.png"))
        [CPOp.fail (strL "b.png") (strL "err")]) :=
  (checkpoint_pending_exact none ⟨[], [], []⟩ (strL "a.png")
    [CPOp.fail (strL "b.png") (strL "err")]).2.2

/-! ### Worker progress accounting (C8) -/

theorem foldl_handle_result_inv :
    ∀ (results : List Bool) (c : WCounts), c.processed = c.success + c.failed →
      (results.foldl handle_result c).processed =
        (results.foldl handle_result c).success +
          (results.foldl handle_result c).failed := by
  intro results
  induction results with
  | nil =>
    intro c h
    exact h
  | cons r rs ih =>
    intro c h
    simp only [List.foldl_cons]
    apply ih
    cases r <;> simp [handle_result] <;> omega

theorem progressEmits_spec (total : Nat) :
    ∀ (results : List Bool) (c : WCounts),
      progressEmits c total results =
        (List.range results.length).map fun i => (c.processed + i + 1, total) := by
  intro results
  induction results with
  | nil => intro c; rfl
  | cons r rs ih =>
    intro c
    simp only [progressEmits, List.length_cons, List.range_succ_eq_map,
      List.map_cons, List.map_map]
    rw [ih]
    congr 1
    refine List.map_congr_left ?_
    intro a _
    simp only [Function.comp_apply, handle_result]
    rw [Prod.mk.injEq]
    exact ⟨by omega, rfl⟩

/-- C8 (amended): `_handle_result` increments `processed` by one and
preserves `processed = success + failed`, so the invariant holds after every
handled result of a run; the i-th emitted `progress` signal is
`(i + 1, total)` with `total` the fixed task count; the percent field of an
`_emit_statistics` dict is `processed / total × 100` with 0 at `total = 0`;
and the percent field of the final statistics dict is 100 whenever
`processed = total` (including the zero-task run) and the ratio otherwise. -/
theorem worker_progress_invariant (c : WCounts) (ok : Bool) (results : List Bool)
    (total skipped : Nat) (elapsed : ℚ) :
    (handle_result c ok).processed = c.processed + 1 ∧
    (c.processed = c.success + c.failed →
      (handle_result c ok).processed =
        (handle_result c ok).success + (handle_result c ok).failed) ∧
    ((runCounts results).processed =
      (runCounts results).success + (runCounts results).failed) ∧
    progressEmits ⟨0, 0, 0⟩ total results =
      ((List.range results.length).map fun i => (i + 1, total)) ∧
    (emitStatistics c skipped total elapsed).percent =
      (if 0 < total then (c.processed : ℚ) / (total : ℚ) * 100 else 0) ∧
    (emitStatistics c skipped total elapsed).total = total ∧
    (emitFinalStatistics c skipped total elapsed).percent =
      (if c.processed = total then 100 else (c.processed : ℚ) / (total : ℚ) * 100) := by
  refine ⟨rfl, ?_, ?_, ?_, rfl, rfl, rfl⟩
  · intro h
    cases ok <;> simp [handle_result] <;> omega
  · exact foldl_handle_result_inv results ⟨0, 0, 0⟩ rfl
  · have h := progressEmits_spec total results ⟨0, 0, 0⟩
    simpa using h

/-- C8 counterexample: the final statistics dict of a zero-task run has
`total = 0` but `percent = 100`, not 0 as the claim states for every emitted
statistics dict. -/
theorem worker_percent_zero_total_cex :
    (emitFinalStatistics ⟨0, 0, 0⟩ 0 0 1).percent = 100 ∧ (100 : ℚ) ≠ 0 := by
  constructor
  · simp [emitFinalStatistics]
  · norm_num

/-- Witness for the amended C8: the invariant propagates through one
concrete `_handle_result` call. -/
theorem worker_progress_invariant_witness :
    (handle_result ⟨4, 3, 1⟩ true).processed =
      (handle_result ⟨4, 3, 1⟩ true).success + (handle_result ⟨4, 3, 1⟩ true).failed :=
  (worker_progress_invariant ⟨4, 3, 1⟩ true [] 0 0 1).2.1 rfl

/-! ### Column letter round trip (C10) -/

theorem colLetter_char_val : ∀ r : Nat, r < 26 →
    ((Char.ofNat (r + 65)).toUpper.toNat : Int) - 64 = (r : Int) + 1 := by decide

theorem colLetter_char_range : ∀ r : Nat, r < 26 →
    'A' ≤ Char.ofNat (r + 65) ∧ Char.ofNat (r + 65) ≤ 'Z' := by decide

theorem colLetterNat_foldl : ∀ n : Nat,
    (colLetterNat n).foldl (fun acc c => acc * 26 + ((c.toUpper.toNat : Int) - 64)) 0 =
      (n : Int) + 1 := by
  intro n
  induction n using Nat.strong_induction_on with
  | _ n ih =>
    rw [colLetterNat]
    by_cases h : n < 26
    · rw [dif_pos h]
      simp only [List.foldl_cons, List.foldl_nil]
      have hv := colLetter_char_val (n % 26) (Nat.mod_lt n (by omega))
      omega
    · rw [dif_neg h]
      rw [List.foldl_append]
      simp only [List.foldl_cons, List.foldl_nil]
      have h26 : 26 ≤ n := Nat.le_of_not_lt h
      have hlt : n / 26 - 1 < n := by
        have := Nat.div_lt_self (show 0 < n by omega) (show 1 < 26 by omega)
        omega
      rw [ih (n / 26 - 1) hlt]
      have hv := colLetter_char_val (n % 26) (Nat.mod_lt n (by omega))
      have h1 : 1 ≤ n / 26 := (Nat.one_le_div_iff (by omega)).mpr h26
      omega

theorem colLetterNat_ne_nil (n : Nat) : colLetterNat n ≠ [] := by
  rw [colLetterNat]
  by_cases h : n < 26
  · rw [dif_pos h]
    simp
  · rw [dif_neg h]
    simp

theorem colLetterNat_mem_range : ∀ n : Nat, ∀ c ∈ colLetterNat n,
    'A' ≤ c ∧ c ≤ 'Z' := by
  intro n
  induction n using Nat.strong_induction_on with
  | _ n ih =>
    intro c hc
    rw [colLetterNat] at hc
    by_cases h : n < 26
    · rw [dif_pos h] at hc
      simp only [List.mem_singleton] at hc
      subst hc
      exact colLetter_char_range (n % 26) (Nat.mod_lt n (by omega))
    · rw [dif_neg h] at hc
      rcases List.mem_append.mp hc with h1 | h2
      · have hlt : n / 26 - 1 < n := by
          have := Nat.div_lt_self (show 0 < n by omega) (show 1 < 26 by omega)
          omega
        exact ih (n / 26 - 1) hlt c h1
      · simp only [List.mem_singleton] at h2
        subst h2
        exact colLetter_char_range (n % 26) (Nat.mod_lt n (by omega))

/-- C10: for every natural `n`, `get_column_index (get_column_letter n) = n`,
and `get_column_letter n` is a nonempty string of uppercase letters A-Z. -/
theorem column_letter_roundtrip (n : Nat) :
    get_column_index (get_column_letter (n : Int)) = (n : Int) ∧
    get_column_letter (n : Int) ≠ [] ∧
    ∀ c ∈ get_column_letter (n : Int), 'A' ≤ c ∧ c ≤ 'Z' := by
  have hneg : ¬((n : Int) < 0) := by omega
  have ht : ((n : Int)).toNat = n := by omega
  unfold get_column_letter
  rw [if_neg hneg, ht]
  refine ⟨?_, colLetterNat_ne_nil n, colLetterNat_mem_range n⟩
  unfold get_column_index
  rw [colLetterNat_foldl n]
  omega

/-- Witness for C10 at `n = 27` (column `"AB"`). -/
theorem column_letter_roundtrip_witness :
    get_column_index (get_column_letter ((27 : Nat) : Int)) = ((27 : Nat) : Int) ∧
      ('A' ≤ 'A' ∧ 'A' ≤ 'Z') :=
  ⟨(column_letter_roundtrip 27).1,
   (column_letter_roundtrip 27).2.2 'A'
     (by
       have h : get_column_letter ((27 : Nat) : Int) = ['A', 'B'] := by
         unfold get_column_letter
         rw [if_neg (by omega)]
         simp only [Int.toNat_ofNat]
         rw [colLetterNat, dif_neg (by omega : ¬(27 : Nat) < 26)]
         norm_num
         rw [colLetterNat]
         decide
       rw [h]
       decide)⟩

/-! ### Worker cancellation (C6) -/

/-- No transition ever clears the cancelled flag. -/
theorem wstep_cancel_mono {n : Nat} {s s' : WorkerState} {l : WLabel}
    (h : WStep n s l s') (hc : s.cancelled = true) : s'.cancelled = true := by
  cases h <;> simp_all

/-- From a cancelled state sitting at a check, every step stays at a check
(or done), submits nothing and handles nothing. -/
theorem wstep_cancelled_atCheck {n : Nat} {s s' : WorkerState} {l : WLabel}
    (h : WStep n s l s') (hc : s.cancelled = true) (ha : AtCheck s) :
    AtCheck s' ∧ l ≠ WLabel.submit ∧ l ≠ WLabel.handle := by
  cases h with
  | submitLoopEnd i hpc hin =>
    exact ⟨Or.inr (Or.inl rfl), by simp, by simp⟩
  | submitBreak i hpc hin hcc =>
    exact ⟨Or.inr (Or.inl rfl), by simp, by simp⟩
  | submitPass i hpc hin hcc =>
    rw [hc] at hcc
    exact absurd hcc (by simp)
  | submitTask i hpc hpause =>
    rcases ha with ⟨j, hj⟩ | hj | hj <;> rw [hpc] at hj <;> simp at hj
  | resultLoopEnd hpc hle =>
    exact ⟨Or.inr (Or.inr rfl), by simp, by simp⟩
  | resultBreak hpc hlt hcc =>
    exact ⟨Or.inr (Or.inr rfl), by simp, by simp⟩
  | resultPass hpc hlt hcc =>
    rw [hc] at hcc
    exact absurd hcc (by simp)
  | handleOne hpc hpause =>
    rcases ha with ⟨j, hj⟩ | hj | hj <;> rw [hpc] at hj <;> simp at hj
  | cancelCall =>
    exact ⟨ha, by simp, by simp⟩
  | pauseCall =>
    exact ⟨ha, by simp, by simp⟩
  | resumeCall =>
    exact ⟨ha, by simp, by simp⟩

/-- Along any execution from a cancelled state, the flag stays set; if the
worker was at a check, no `submit` and no `handle` step ever occurs. -/
theorem wexec_cancelled {n : Nat} :
    ∀ {s : WorkerState} {ls : List WLabel} {s' : WorkerState},
      WExec n s ls s' → s.cancelled = true →
      s'.cancelled = true ∧
        (AtCheck s → WLabel.submit ∉ ls ∧ WLabel.handle ∉ ls ∧ AtCheck s') := by
  intro s ls s' hex
  induction hex with
  | nil =>
    intro hc
    exact ⟨hc, fun ha => ⟨by simp, by simp, ha⟩⟩
  | cons hstep hrest ih =>
    intro hc
    have hc1 := wstep_cancel_mono hstep hc
    obtain ⟨hc2, hrest2⟩ := ih hc1
    refine ⟨hc2, ?_⟩
    intro ha
    obtain ⟨ha1, hns, hnh⟩ := wstep_cancelled_atCheck hstep hc ha
    obtain ⟨hs2, hh2, ha2⟩ := hrest2 ha1
    refine ⟨?_, ?_, ha2⟩
    · intro hmem
      rcases List.mem_cons.mp hmem with h1 | h1
      · exact hns h1.symm
      · exact hs2 h1
    · intro hmem
      rcases List.mem_cons.mp hmem with h1 | h1
      · exact hnh h1.symm
      · exact hh2 h1

/-- C6: cancellation is cooperative and final.  A `cancel()` transition sets
`is_cancelled` and sets the pause event (`is_paused` becomes false, so a
paused worker is unblocked); and from any cancelled state the flag remains
set for the rest of the run, while a worker sitting at one of its
cancellation checks performs no further `submit` and no further `handle`,
exiting through the checks instead. -/
theorem worker_cancellation (n : Nat) :
    (∀ s s', WStep n s WLabel.cancelCall s' →
      is_cancelled s' = true ∧ is_paused s' = false) ∧
    (∀ s ls s', WExec n s ls s' → s.cancelled = true →
      is_cancelled s' = true ∧
        (AtCheck s → WLabel.submit ∉ ls ∧ WLabel.handle ∉ ls ∧ AtCheck s')) := by
  constructor
  · intro s s' h
    cases h
    exact ⟨rfl, rfl⟩
  · intro s ls s' hex hc
    exact wexec_cancelled hex hc

/-- Witness for C6: a concrete `cancel()` step and the empty continuation of
a cancelled state at its first check. -/
theorem worker_cancellation_witness :
    (is_cancelled { witWS with cancelled := true, pauseSet := true } = true ∧
      is_paused { witWS with cancelled := true, pauseSet := true } = false) ∧
    (is_cancelled witWS = true ∧
      (AtCheck witWS → WLabel.submit ∉ ([] : List WLabel) ∧
        WLabel.handle ∉ ([] : List WLabel) ∧ AtCheck witWS)) :=
  ⟨(worker_cancellation 0).1 witWS _ (WStep.cancelCall witWS),
   (worker_cancellation 0).2 witWS [] witWS (WExec.nil witWS) rfl⟩

end ImgAnn
